import Mathlib

/-!
Verification development for the patch-application scripts of the
claude-workbench repository.

The repository's core consists of small Python scripts that apply
pattern-anchored textual edits to Rust source files:

* `apply_platform_refactor.py` — a sequence of `str.replace` / `re.sub`
  edits per file, wrapped in a single `try/except` over the whole run;
* `src-tauri/fix_utf8.py` — regex-literal substitutions that rewrite
  byte slices to calls of a UTF-8-safe truncation function
  `truncate_utf8_safe` (the Rust function itself is embedded in the
  script as `TRUNCATE_FUNCTION` and is modelled here as well);
* `src-tauri/src/process/fix_mutex.py` — a positional line-block splice.

Buffers are modelled as `List Char`.  Python's `str.replace` and
`re.sub` with a fully escaped (literal) pattern both perform leftmost,
non-overlapping, replace-all substitution; they are modelled by
`pyReplace`.  The one non-literal regex used by `update_cli_runner`
(two lazy gaps between three literals) is modelled by a small
backtracking matcher over a token list (`RPat`).  Recursive functions
take explicit fuel so that every definition is structurally recursive
and kernel-reducible.
-/

namespace Workbench

set_option maxRecDepth 400000

/-- Python's `p in s` substring test: `p` occurs in `s` at some offset. -/
def occurs (p : List Char) : List Char → Bool
  | [] => p.isEmpty
  | c :: rest => p.isPrefixOf (c :: rest) || occurs p rest

/-- Fuel-driven core of leftmost non-overlapping replace-all.
Scans `s` left to right; whenever `old` is a prefix of the remaining
input, emits `ne` and resumes after the consumed occurrence, otherwise
copies one character.  `old` is nonempty at every call site and the
fuel is at least `s.length`, so the fuel-exhausted branch is never
reached there. -/
def pyReplaceGo (old ne : List Char) : Nat → List Char → List Char
  | 0, s => s
  | _ + 1, [] => []
  | fuel + 1, c :: rest =>
    if old.isPrefixOf (c :: rest) then
      ne ++ pyReplaceGo old ne fuel (rest.drop (old.length - 1))
    else
      c :: pyReplaceGo old ne fuel rest

/-- Python `s.replace(old, ne)` (equivalently `re.sub` with a fully
escaped literal pattern): replace every non-overlapping occurrence of
`old` in `s` by `ne`, leftmost first.  For the empty pattern Python
inserts `ne` before every character and at the end. -/
def pyReplace (s old ne : List Char) : List Char :=
  match old with
  | [] => ne ++ s.flatMap (fun c => c :: ne)
  | _ :: _ => pyReplaceGo old ne s.length s

/-- Pattern tokens for the one non-literal regex of the scripts:
literal runs, a lazy `.*?` gap (no newline), and a lazy `[\s\S]*?` gap
(any character). -/
inductive RPat where
  | lit : List Char → RPat
  | gapNoNl : RPat
  | gapAny : RPat
deriving DecidableEq

/-- Backtracking matcher for a token list at the head of the input,
with Python's lazy-gap semantics (each gap takes the shortest length
that lets the remaining tokens match).  Returns the remaining input
after the match.  Fuel-driven; callers supply ample fuel. -/
def matchToks : Nat → List RPat → List Char → Option (List Char)
  | 0, _, _ => none
  | _ + 1, [], s => some s
  | fuel + 1, .lit l :: ts, s =>
    if l.isPrefixOf s then matchToks fuel ts (s.drop l.length) else none
  | fuel + 1, .gapNoNl :: ts, s =>
    match matchToks fuel ts s with
    | some r => some r
    | none =>
      match s with
      | [] => none
      | c :: rest =>
        if c = '\n' then none else matchToks fuel (.gapNoNl :: ts) rest
  | fuel + 1, .gapAny :: ts, s =>
    match matchToks fuel ts s with
    | some r => some r
    | none =>
      match s with
      | [] => none
      | _ :: rest => matchToks fuel (.gapAny :: ts) rest

/-- Match attempt with fuel ample for the pattern and input sizes. -/
def tryMatch (pat : List RPat) (s : List Char) : Option (List Char) :=
  matchToks ((pat.length + 1) * (s.length + 2) + 1) pat s

/-- Scanning core of `re.sub`: at each position try a match; on a
(nonempty) match emit the replacement and resume after it, otherwise
copy one character.  Our patterns begin with a nonempty literal, so
empty matches cannot arise; they are handled like Python (emit the
replacement and advance one character). -/
def reSubGo (pat : List RPat) (repl : List Char) : Nat → List Char → List Char
  | 0, s => s
  | _ + 1, [] => if (tryMatch pat []).isSome then repl else []
  | fuel + 1, c :: rest =>
    match tryMatch pat (c :: rest) with
    | none => c :: reSubGo pat repl fuel rest
    | some rem =>
      if rem.length = (c :: rest).length then
        repl ++ c :: reSubGo pat repl fuel rest
      else
        repl ++ reSubGo pat repl fuel rem

/-- Python `re.sub(pat, repl, s)` for the modelled pattern class. -/
def reSub (pat : List RPat) (repl s : List Char) : List Char :=
  reSubGo pat repl (s.length + 1) s

/-! ### Text-mode I/O

The scripts open files with `open(path, 'r'/'w', encoding='utf-8')`,
i.e. in text mode with universal newlines: on read, `\r\n` and lone
`\r` become `\n`; on write, each `\n` becomes the platform line
separator (`os.linesep`). -/

/-- Universal-newline decoding performed by a text-mode read. -/
def univNewlines : List Char → List Char
  | [] => []
  | [c] => if c = '\r' then ['\n'] else [c]
  | c :: d :: rest =>
    if c = '\r' then
      if d = '\n' then '\n' :: univNewlines rest
      else '\n' :: univNewlines (d :: rest)
    else c :: univNewlines (d :: rest)

/-- Newline encoding performed by a text-mode write: each `\n` becomes
the platform separator `linesep`. -/
def encodeNewlines (linesep : List Char) : List Char → List Char
  | [] => []
  | c :: rest => (if c = '\n' then linesep else [c]) ++ encodeNewlines linesep rest

/-- One read–transform–write cycle of a script in text mode: the bytes
that end up on disk as a function of the bytes that were there. -/
def textModeRoundTrip (linesep : List Char) (transform : List Char → List Char)
    (file : List Char) : List Char :=
  encodeNewlines linesep (transform (univNewlines file))

/-- Accumulator core of Python `f.readlines()`: split after every
newline, keeping the newline at the end of each line; a final segment
without a newline is kept as a last line. -/
def readlinesAux (cur : List Char) : List Char → List (List Char)
  | [] => if cur.isEmpty then [] else [cur.reverse]
  | c :: rest =>
    if c = '\n' then (cur.reverse ++ ['\n']) :: readlinesAux [] rest
    else readlinesAux (c :: cur) rest

/-- Python `f.readlines()` on an in-memory buffer. -/
def pyReadlines (s : List Char) : List (List Char) :=
  readlinesAux [] s

/-! ### Concrete patch data of `apply_platform_refactor.py` -/

/-- Anchor of `update_cli_runner` step 1: the existing config import. -/
def ucrImportAnchor : List Char :=
  "use super::config::get_claude_execution_config;".data

/-- Replacement of step 1: the anchor plus the new platform import.
Note that it contains the anchor itself. -/
def ucrImportRepl : List Char :=
  ucrImportAnchor ++ "\nuse super::platform;".data

/-- Anchor of step 2: the old wrapper-resolution call. -/
def ucrCallAnchor : List Char :=
  "resolve_cmd_wrapper_tokio(program)".data

/-- Replacement of step 2: the new platform call. -/
def ucrCallRepl : List Char :=
  "platform::resolve_cmd_wrapper(program)".data

/-- Step 3 regex, first literal run. -/
def ucrDelLit1 : List Char :=
  "/// Windows-specific: Resolve .cmd wrapper".data

/-- Step 3 regex, second literal run (between `.*?` and `[\s\S]*?`). -/
def ucrDelLit2 : List Char :=
  "\n#[cfg(target_os = \"windows\")]\nfn resolve_cmd_wrapper_tokio(cmd_path: &str) -> Option<(String, String)> \x7b".data

/-- Step 3 regex, final literal run. -/
def ucrDelLit3 : List Char :=
  "    None\n\x7d\n\n#[cfg(not(target_os = \"windows\"))]\nfn resolve_cmd_wrapper_tokio(_cmd_path: &str) -> Option<(String, String)> \x7b\n    None\n\x7d\n".data

/-- Step 3 pattern: `lit1 .*? lit2 [\s\S]*? lit3`. -/
def ucrDelPattern : List RPat :=
  [.lit ucrDelLit1, .gapNoNl, .lit ucrDelLit2, .gapAny, .lit ucrDelLit3]

/-- Anchor of step 4 (the `re.sub` pattern is fully escaped, i.e. a
literal). -/
def ucrFlagsAnchor : List Char :=
  "    // On Windows, ensure the command runs without creating a console window\n    #[cfg(target_os = \"windows\")]\n    cmd.creation_flags(0x08000000); // CREATE_NO_WINDOW".data

/-- Replacement of step 4. -/
def ucrFlagsRepl : List Char :=
  "    // Apply platform-specific no-window configuration\n    platform::apply_no_window_async(&mut cmd);".data

/-- The in-memory buffer transform of `update_cli_runner` in
`apply_platform_refactor.py`: steps 1–4 in source order.  Steps 1, 2
are `str.replace`; step 3 is `re.sub(pattern, '')` with two lazy gaps;
step 4 is `re.sub` with a fully escaped literal pattern, i.e.
replace-all of the literal. -/
def update_cli_runner_transform (content : List Char) : List Char :=
  let c1 := pyReplace content ucrImportAnchor ucrImportRepl
  let c2 := pyReplace c1 ucrCallAnchor ucrCallRepl
  let c3 := reSub ucrDelPattern [] c2
  pyReplace c3 ucrFlagsAnchor ucrFlagsRepl

/-- Guard string of `update_config`: the platform import. -/
def platformImport : List Char :=
  "use super::platform;".data

/-- Anchor used by `update_config` to place the import. -/
def pathsImportAnchor : List Char :=
  "use super::paths::get_claude_dir;".data

/-- Anchor of the `update_config` creation-flags rewrite (escaped
literal `re.sub` pattern). -/
def cfgFlagsAnchor : List Char :=
  "        cmd.creation_flags(0x08000000); // CREATE_NO_WINDOW".data

/-- Replacement of the `update_config` creation-flags rewrite. -/
def cfgFlagsRepl : List Char :=
  "        platform::apply_no_window(&mut cmd);".data

/-- The in-memory buffer transform of `update_config`: a guarded
insertion of the import (`if 'use super::platform;' not in content`)
followed by the creation-flags rewrite. -/
def update_config_transform (content : List Char) : List Char :=
  let c1 :=
    if occurs platformImport content then content
    else pyReplace content pathsImportAnchor (pathsImportAnchor ++ ('\n' :: platformImport))
  pyReplace c1 cfgFlagsAnchor cfgFlagsRepl

/-- One run of `update_config` on a readable file: the final buffer
together with whether a write is performed.  In the source the
`open(filepath, 'w')`/`f.write(content)` block is unconditional — there
is no dirty check — so the flag is `true` on every path. -/
def update_config_job (content : List Char) : List Char × Bool :=
  (update_config_transform content, true)

/-! ### Concrete patch data of `src-tauri/fix_utf8.py`

All four slice rewrites are `re.sub` calls whose patterns are fully
escaped literals, hence leftmost non-overlapping replace-all. -/

/-- Slice pattern 1 of `fix_claude_rs`. -/
def sliceOld1 : List Char := "&trimmed_prompt[..MAX_PROMPT_LENGTH]".data

/-- Replacement 1 of `fix_claude_rs`. -/
def sliceNew1 : List Char :=
  "truncate_utf8_safe(trimmed_prompt, MAX_PROMPT_LENGTH)".data

/-- Slice pattern 2 of `fix_claude_rs`. -/
def sliceOld2 : List Char := "&context_str[..MAX_CONTEXT_LENGTH]".data

/-- Replacement 2 of `fix_claude_rs`. -/
def sliceNew2 : List Char :=
  "truncate_utf8_safe(&context_str, MAX_CONTEXT_LENGTH)".data

/-- Slice pattern 1 of `fix_acemcp_rs`. -/
def sliceOld3 : List Char := "&context_result[..max_length]".data

/-- Replacement 1 of `fix_acemcp_rs`. -/
def sliceNew3 : List Char :=
  "truncate_utf8_safe(&context_result, max_length)".data

/-- Slice pattern 2 of `fix_acemcp_rs`. -/
def sliceOld4 : List Char := "&trimmed_context[..available_space]".data

/-- Replacement 2 of `fix_acemcp_rs`. -/
def sliceNew4 : List Char :=
  "truncate_utf8_safe(&trimmed_context, available_space)".data

/-! ### `src-tauri/src/process/fix_mutex.py` -/

/-- The `new_block` string spliced in by `fix_mutex.py`, byte for byte
(the check mark is U+2705). -/
def mutexNewBlock : List Char :=
  ("        // First, collect all process IDs (lock released immediately)\n" ++
   "        let run_ids: Vec<i64> = \x7b\n" ++
   "            let processes = processes_lock.lock().map_err(|e| e.to_string())?;\n" ++
   "            processes.keys().cloned().collect()\n" ++
   "        \x7d; // ✅ Lock is released here, before any await points\n" ++
   "\n" ++
   "        // Then check each process (no lock held during async operations)\n" ++
   "        for run_id in run_ids \x7b\n" ++
   "            if !self.is_process_running(run_id).await? \x7b\n" ++
   "                finished_runs.push(run_id);\n" ++
   "            \x7d\n" ++
   "        \x7d\n" ++
   "\n").data

/-- The buffer transform of `fix_mutex.py`: split into lines keeping
line ends (`readlines`), keep lines 0–627, splice in `new_block`,
keep lines from index 640 on (`output_lines = lines[:628] +
[new_block] + lines[640:]`), and re-join (`writelines`). -/
def fix_mutex_transform (content : List Char) : List Char :=
  let lines := pyReadlines content
  ((lines.take 628).flatten) ++ mutexNewBlock ++ ((lines.drop 640).flatten)

/-! ### The Rust `truncate_utf8_safe` (from `TRUNCATE_FUNCTION`)

A Rust `&str` is modelled as a `List Char`; `s.len()` is the total
UTF-8 byte length, `s.is_char_boundary(i)` holds exactly when `i` is
the byte length of some character-prefix of `s`, and `&s[..i]` at a
char boundary is the character-prefix of byte length `i`. -/

/-- Rust `s.len()`: total UTF-8 byte length. -/
def byteLen (s : List Char) : Nat := (s.map Char.utf8Size).sum

/-- Rust `s.is_char_boundary(i)`: `i` is the byte length of some
character-prefix of `s` (false beyond `s.len()`). -/
def isCharBoundary (s : List Char) (i : Nat) : Bool :=
  (List.range (s.length + 1)).any fun k => byteLen (s.take k) == i

/-- The backward scan of `truncate_utf8_safe`:
`while index > 0 && !s.is_char_boundary(index) \x7b index -= 1; \x7d`. -/
def scanBack (s : List Char) : Nat → Nat
  | 0 => 0
  | i + 1 => if isCharBoundary s (i + 1) then i + 1 else scanBack s i

/-- Rust `&s[..i]` for `i` a char boundary: the character-prefix of
byte length `i` (at call sites `i` is always a boundary). -/
def sliceTo : List Char → Nat → List Char
  | [], _ => []
  | c :: cs, i => if c.utf8Size ≤ i then c :: sliceTo cs (i - c.utf8Size) else []

/-- Rust `fn truncate_utf8_safe(s: &str, max_bytes: usize) -> &str`
from `TRUNCATE_FUNCTION` in `fix_utf8.py`: identity fast path when the
buffer already fits; otherwise scan backward from `max_bytes` for a
char boundary; if the scan reaches 0, return the whole first character
(`char_indices().next()`, with `unwrap_or("")` for the empty string),
else slice at the boundary found. -/
def truncate_utf8_safe (s : List Char) (max_bytes : Nat) : List Char :=
  if byteLen s ≤ max_bytes then s
  else
    let index := scanBack s max_bytes
    if index = 0 then
      match s with
      | [] => []
      | c :: _ => [c]
    else
      sliceTo s index

/-! ### The run orchestrator of `apply_platform_refactor.py`

`__main__` runs the five update functions in order inside one
`try/except Exception` block; the handler prints the error and the
traceback and falls through, so the interpreter exits normally.  A job
is modelled by a file name and its buffer transform; the file system
by a partial map from names to contents, `none` meaning the `open`
call raises `IOError`. -/

/-- One job: a target file and the in-memory transform applied to it. -/
structure Job where
  name : Nat
  transform : List Char → List Char

/-- Sequential execution of the job list under the single
`try/except`: each job reads its file, transforms it and writes it
back; the first job whose file is unreadable raises, the exception
propagates to the handler, and every remaining job is skipped.
Returns the final file system and the name of the failed file, if
any. -/
def runJobs (fs : Nat → Option (List Char)) :
    List Job → (Nat → Option (List Char)) × Option Nat
  | [] => (fs, none)
  | j :: rest =>
    match fs j.name with
    | none => (fs, some j.name)
    | some c =>
      runJobs (fun n => if n = j.name then some (j.transform c) else fs n) rest

/-- Process exit status of the script: the `except` handler only
prints (`print(f"Error: ...")`, `traceback.print_exc()`) and does not
re-raise or call `sys.exit`, so the interpreter exits with status 0 on
the error path exactly as on the success path. -/
def mainExitCode (fs : Nat → Option (List Char)) (jobs : List Job) : Nat :=
  match (runJobs fs jobs).2 with
  | none => 0
  | some _ => 0

/-- Decidable non-interference conditions between a pattern and its
replacement: the pattern is nonempty, does not occur in the
replacement, no nonempty proper prefix of the pattern is a suffix of
the replacement, and no nonempty proper suffix of the pattern is in a
prefix relation with the replacement in either direction.  Under these
conditions replace-all can neither leave nor create an occurrence of
the pattern. -/
def goodPair (old ne : List Char) : Bool :=
  !old.isEmpty && !occurs old ne &&
    (List.range old.length).all fun k =>
      decide (k = 0) ||
        (!(old.take k).isSuffixOf ne &&
         !(old.drop k).isPrefixOf ne &&
         !ne.isPrefixOf (old.drop k))

/-- The platform line separator on a POSIX host (`os.linesep`). -/
def lfSep : List Char := ['\n']

/-! ## Concrete fixtures for the orchestrator claims -/

/-- A two-file system in which file 0 is unreadable and file 1 is
empty. -/
def fsDemo : Nat → Option (List Char) := fun n => if n = 0 then none else some []

/-- A job on the unreadable file. -/
def jobDemoA : Job := ⟨0, fun c => c⟩

/-- A job on the readable file whose transform changes the buffer. -/
def jobDemoB : Job := ⟨1, fun c => 'x' :: c⟩

/-- A buffer with a Windows line ending. -/
def crlfDemo : List Char := "a\r\nb".data


/-! ## Lemmas about substring occurrence and replace-all -/

theorem isPrefixOfEq {l1 l2 : List Char} : l1.isPrefixOf l2 = true ↔ l1 <+: l2 :=
  List.isPrefixOf_iff_prefix

theorem isSuffixOfEq {l1 l2 : List Char} : l1.isSuffixOf l2 = true ↔ l1 <:+ l2 :=
  List.isSuffixOf_iff_suffix

theorem prefOfPrefLenLe {l1 l2 l3 : List Char} (h1 : l1 <+: l3) (h2 : l2 <+: l3)
    (h : l1.length ≤ l2.length) : l1 <+: l2 :=
  List.prefix_of_prefix_length_le h1 h2 h

theorem occurs_of_pref {p s : List Char} (h : p <+: s) : occurs p s = true := by
  cases s with
  | nil =>
    have hp : p = [] := List.prefix_nil.mp h
    simp [occurs, hp]
  | cons c rest =>
    simp [occurs]
    exact Or.inl h

theorem occurs_tail {p : List Char} {c : Char} {rest : List Char}
    (h : occurs p rest = true) : occurs p (c :: rest) = true := by
  simp [occurs]
  exact Or.inr h

/-- An occurrence of `p` in `x ++ y` lies in `x`, lies in `y`, or
spans the seam: a nonempty proper prefix of `p` is a suffix of `x`
while the matching remainder of `p` is a prefix of `y`. -/
theorem occurs_append {p : List Char} : ∀ {x y : List Char},
    occurs p (x ++ y) = true →
    occurs p x = true ∨ occurs p y = true ∨
      ∃ k, 0 < k ∧ k < p.length ∧ p.take k <:+ x ∧ p.drop k <+: y := by
  intro x
  induction x with
  | nil =>
    intro y h
    exact Or.inr (Or.inl h)
  | cons c x2 ih =>
    intro y h
    have hsplit : p <+: c :: (x2 ++ y) ∨ occurs p (x2 ++ y) = true := by
      have := h
      simp [occurs] at this
      exact this
    rcases hsplit with hp | ho
    · have hpref : p <+: (c :: x2) ++ y := hp
      by_cases hl : p.length ≤ (c :: x2).length
      · have : p <+: c :: x2 :=
          prefOfPrefLenLe hpref ( List.prefix_append (c :: x2) y) hl
        exact Or.inl (occurs_of_pref this)
      · have hlen : (c :: x2).length ≤ p.length := Nat.le_of_lt (Nat.lt_of_not_le hl)
        obtain ⟨t, ht⟩ := hpref
        refine Or.inr (Or.inr ⟨(c :: x2).length, Nat.succ_pos _, Nat.lt_of_not_le hl, ?_, ?_⟩)
        · have h1 : (p ++ t).take (c :: x2).length = c :: x2 := by
            rw [ht]
            exact List.take_left (c :: x2) y
          have h2 : p.take (c :: x2).length = c :: x2 :=
            (List.take_append_of_le_length hlen).symm.trans h1
          rw [h2]
        · have h2 : p.drop (c :: x2).length ++ t = y := by
            rw [← List.drop_append_of_le_length hlen, ht]
            exact List.drop_left (c :: x2) y
          exact ⟨t, h2⟩
    · rcases ih ho with h1 | h2 | ⟨k, hk0, hkl, hs, hd⟩
      · exact Or.inl (occurs_tail h1)
      · exact Or.inr (Or.inl h2)
      · exact Or.inr (Or.inr ⟨k, hk0, hkl, hs.trans (List.suffix_cons c x2), hd⟩)

theorem pyReplaceGo_nil (old ne : List Char) : ∀ fuel, pyReplaceGo old ne fuel [] = []
  | 0 => rfl
  | _ + 1 => rfl

/-- Transfer of proper-suffix prefixes through the replace-all scan:
if no proper suffix of the (nonempty) pattern has a prefix
relationship with the replacement in either direction, then a proper
suffix of the pattern that is a prefix of the scan's output was
already a prefix of the scan's input. -/
theorem replaceGoSuffixTransfer (o : Char) (os ne : List Char)
    (hc : ∀ k, 0 < k → k < (o :: os).length → ¬ ((o :: os).drop k <+: ne))
    (he : ∀ k, 0 < k → k < (o :: os).length → ¬ (ne <+: (o :: os).drop k)) :
    ∀ fuel s k, 0 < k → k < (o :: os).length →
      (o :: os).drop k <+: pyReplaceGo (o :: os) ne fuel s →
      (o :: os).drop k <+: s := by
  intro fuel
  induction fuel with
  | zero => intro s k _ _ h; exact h
  | succ fuel ih =>
    intro s k hk0 hkl h
    cases s with
    | nil => simpa [pyReplaceGo_nil] using h
    | cons c rest =>
      by_cases hp : (o :: os).isPrefixOf (c :: rest) = true
      · rw [show pyReplaceGo (o :: os) ne (fuel + 1) (c :: rest)
              = ne ++ pyReplaceGo (o :: os) ne fuel (rest.drop ((o :: os).length - 1)) by
            simp [pyReplaceGo, hp]] at h
        by_cases hl : ((o :: os).drop k).length ≤ ne.length
        · exact absurd (prefOfPrefLenLe h ( List.prefix_append ne _) hl) (hc k hk0 hkl)
        · exact absurd (prefOfPrefLenLe ( List.prefix_append ne _) h (Nat.le_of_not_le hl))
            (he k hk0 hkl)
      · rw [show pyReplaceGo (o :: os) ne (fuel + 1) (c :: rest)
              = c :: pyReplaceGo (o :: os) ne fuel rest by
            simp [pyReplaceGo, hp]] at h
        cases hvs : (o :: os).drop k with
        | nil =>
          exact List.nil_prefix
        | cons v0 v1 =>
          rw [hvs] at h
          obtain ⟨hv0, hv1⟩ := List.cons_prefix_cons.mp h
          cases v1 with
          | nil =>
            exact List.cons_prefix_cons.mpr ⟨hv0, List.nil_prefix⟩
          | cons w0 w1 =>
            have hdropsucc : (o :: os).drop (k + 1) = w0 :: w1 := by
              rw [← List.drop_drop, hvs]
              rfl
            have hkl2 : k + 1 < (o :: os).length := by
              by_contra hle
              have hnil : (o :: os).drop (k + 1) = [] :=
                List.drop_eq_nil_iff.mpr (Nat.le_of_not_lt hle)
              rw [hdropsucc] at hnil
              exact List.cons_ne_nil _ _ hnil
            have htail := ih rest (k + 1) (Nat.succ_pos k) hkl2 (by rw [hdropsucc]; exact hv1)
            rw [hdropsucc] at htail
            exact List.cons_prefix_cons.mpr ⟨hv0, htail⟩

/-- Under the non-interference conditions, the output of the
replace-all scan never contains the pattern. -/
theorem occursReplaceGoFalse (o : Char) (os ne : List Char)
    (ha : occurs (o :: os) ne = false)
    (hb : ∀ k, 0 < k → k < (o :: os).length → ¬ ((o :: os).take k <:+ ne))
    (hc : ∀ k, 0 < k → k < (o :: os).length → ¬ ((o :: os).drop k <+: ne))
    (he : ∀ k, 0 < k → k < (o :: os).length → ¬ (ne <+: (o :: os).drop k)) :
    ∀ fuel s, s.length ≤ fuel →
      occurs (o :: os) (pyReplaceGo (o :: os) ne fuel s) = false := by
  intro fuel
  induction fuel with
  | zero =>
    intro s hs
    have : s = [] := List.length_eq_zero.mp (Nat.le_zero.mp hs)
    subst this
    rfl
  | succ fuel ih =>
    intro s hs
    cases s with
    | nil => rfl
    | cons c rest =>
      by_cases hp : (o :: os).isPrefixOf (c :: rest) = true
      · rw [show pyReplaceGo (o :: os) ne (fuel + 1) (c :: rest)
              = ne ++ pyReplaceGo (o :: os) ne fuel (rest.drop ((o :: os).length - 1)) by
            simp [pyReplaceGo, hp]]
        have hlen : (rest.drop ((o :: os).length - 1)).length ≤ fuel := by
          have h1 : rest.length ≤ fuel := Nat.le_of_succ_le_succ hs
          calc (rest.drop ((o :: os).length - 1)).length
              ≤ rest.length := by rw [List.length_drop]; exact Nat.sub_le _ _
            _ ≤ fuel := h1
        by_contra hocc
        have hocc2 : occurs (o :: os)
            (ne ++ pyReplaceGo (o :: os) ne fuel (rest.drop ((o :: os).length - 1))) = true := by
          cases hocc3 : occurs (o :: os)
              (ne ++ pyReplaceGo (o :: os) ne fuel (rest.drop ((o :: os).length - 1))) with
          | false => exact absurd hocc3 hocc
          | true => rfl
        rcases occurs_append hocc2 with h1 | h2 | ⟨k, hk0, hkl, hsuf, hpre⟩
        · rw [ha] at h1
          exact Bool.false_ne_true h1
        · rw [ih _ hlen] at h2
          exact Bool.false_ne_true h2
        · exact hb k hk0 hkl hsuf
      · rw [show pyReplaceGo (o :: os) ne (fuel + 1) (c :: rest)
              = c :: pyReplaceGo (o :: os) ne fuel rest by
            simp [pyReplaceGo, hp]]
        have hrest : rest.length ≤ fuel := Nat.le_of_succ_le_succ hs
        have ihrest := ih rest hrest
        simp only [occurs, Bool.or_eq_false_iff]
        refine ⟨?_, ihrest⟩
        by_contra hpre2
        have hpre3 : (o :: os).isPrefixOf (c :: pyReplaceGo (o :: os) ne fuel rest) = true := by
          cases hx : (o :: os).isPrefixOf (c :: pyReplaceGo (o :: os) ne fuel rest) with
          | false => exact absurd hx hpre2
          | true => rfl
        have hpref : (o :: os) <+: c :: pyReplaceGo (o :: os) ne fuel rest :=
          isPrefixOfEq.mp hpre3
        obtain ⟨hoc, hos⟩ := List.cons_prefix_cons.mp hpref
        cases hosnil : os with
        | nil =>
          apply hp
          apply isPrefixOfEq.mpr
          rw [hosnil, hoc]
          exact List.cons_prefix_cons.mpr ⟨rfl, List.nil_prefix⟩
        | cons p0 p1 =>
          have hlen2 : 1 < (o :: os).length := by
            simp [hosnil]
          have htrans := replaceGoSuffixTransfer o os ne hc he fuel rest 1
            Nat.one_pos hlen2 (by simpa using hos)
          apply hp
          apply isPrefixOfEq.mpr
          rw [hoc]
          exact List.cons_prefix_cons.mpr ⟨rfl, by simpa using htrans⟩

/-- If the pattern does not occur in the input, the replace-all scan
is the identity. -/
theorem replaceGoIdOfNoOccur (old ne : List Char) :
    ∀ fuel s, occurs old s = false → pyReplaceGo old ne fuel s = s := by
  intro fuel
  induction fuel with
  | zero => intro s _; rfl
  | succ fuel ih =>
    intro s hocc
    cases s with
    | nil => rfl
    | cons c rest =>
      have hsplit : (old.isPrefixOf (c :: rest) || occurs old rest) = false := hocc
      rw [Bool.or_eq_false_iff] at hsplit
      rw [show pyReplaceGo old ne (fuel + 1) (c :: rest)
            = c :: pyReplaceGo old ne fuel rest by
          simp [pyReplaceGo, hsplit.1]]
      rw [ih rest hsplit.2]

/-- Replace-all is idempotent for every pattern/replacement pair
satisfying the non-interference conditions. -/
theorem pyReplace_idem (old ne : List Char) (hgood : goodPair old ne = true)
    (s : List Char) :
    pyReplace (pyReplace s old ne) old ne = pyReplace s old ne := by
  cases old with
  | nil => simp [goodPair] at hgood
  | cons o os =>
    have hbits : occurs (o :: os) ne = false ∧
        ∀ k, 0 < k → k < (o :: os).length →
          ¬ ((o :: os).take k <:+ ne) ∧ ¬ ((o :: os).drop k <+: ne) ∧
            ¬ (ne <+: (o :: os).drop k) := by
      rw [goodPair, Bool.and_eq_true, Bool.and_eq_true] at hgood
      obtain ⟨⟨_, hnoccB⟩, hall⟩ := hgood
      rw [Bool.not_eq_true'] at hnoccB
      refine ⟨hnoccB, ?_⟩
      intro k hk0 hkl
      have hk := List.all_eq_true.mp hall k (List.mem_range.mpr hkl)
      rw [Bool.or_eq_true] at hk
      rcases hk with h0 | hcon
      · exact absurd (of_decide_eq_true h0) (by omega)
      · rw [Bool.and_eq_true, Bool.and_eq_true] at hcon
        obtain ⟨⟨hA, hB⟩, hC⟩ := hcon
        rw [Bool.not_eq_true'] at hA hB hC
        have h1 := hA
        have h2 := hB
        have h3 := hC
        refine ⟨?_, ?_, ?_⟩
        · exact fun hx => Bool.false_ne_true (h1.symm.trans (isSuffixOfEq.mpr hx))
        · exact fun hx => Bool.false_ne_true (h2.symm.trans (isPrefixOfEq.mpr hx))
        · exact fun hx => Bool.false_ne_true (h3.symm.trans (isPrefixOfEq.mpr hx))
    obtain ⟨hnocc, hks⟩ := hbits
    have hnoafter : occurs (o :: os) (pyReplaceGo (o :: os) ne s.length s) = false :=
      occursReplaceGoFalse o os ne hnocc (fun k a b => (hks k a b).1)
        (fun k a b => (hks k a b).2.1) (fun k a b => (hks k a b).2.2)
        s.length s (Nat.le_refl _)
    show pyReplaceGo (o :: os) ne (pyReplaceGo (o :: os) ne s.length s).length
        (pyReplaceGo (o :: os) ne s.length s) = pyReplaceGo (o :: os) ne s.length s
    exact replaceGoIdOfNoOccur (o :: os) ne _ _ hnoafter

/-- A scan step at a position where the pattern matches: emit the
replacement and continue after the consumed occurrence. -/
theorem replaceGoStepMatch (o : Char) (os ne : List Char) (fuel : Nat) (rest : List Char) :
    pyReplaceGo (o :: os) ne (fuel + 1) ((o :: os) ++ rest) =
      ne ++ pyReplaceGo (o :: os) ne fuel rest := by
  show pyReplaceGo (o :: os) ne (fuel + 1) (o :: (os ++ rest)) = _
  have hp : (o :: os).isPrefixOf (o :: (os ++ rest)) = true :=
    isPrefixOfEq.mpr (List.cons_prefix_cons.mpr ⟨rfl, List.prefix_append os rest⟩)
  rw [show pyReplaceGo (o :: os) ne (fuel + 1) (o :: (os ++ rest))
        = ne ++ pyReplaceGo (o :: os) ne fuel ((os ++ rest).drop ((o :: os).length - 1)) by
      simp [pyReplaceGo, hp]]
  congr 1
  rw [show (o :: os).length - 1 = os.length by simp, List.drop_left]

/-- A scan on exactly one occurrence of the pattern produces exactly
the replacement. -/
theorem replaceGoWholeMatch (o : Char) (os ne : List Char) (fuel : Nat) :
    pyReplaceGo (o :: os) ne (fuel + 1) (o :: os) = ne := by
  have hstep := replaceGoStepMatch o os ne fuel []
  rw [List.append_nil] at hstep
  rw [hstep, pyReplaceGo_nil, List.append_nil]

/-! ## Lemmas about the UTF-8 truncation model -/

theorem byteLen_cons (c : Char) (s : List Char) :
    byteLen (c :: s) = c.utf8Size + byteLen s := by
  simp [byteLen]

theorem byteLen_append (x y : List Char) : byteLen (x ++ y) = byteLen x + byteLen y := by
  simp [byteLen]

theorem isCharBoundary_of_take (s : List Char) (k : Nat) (hk : k ≤ s.length) :
    isCharBoundary s (byteLen (s.take k)) = true := by
  rw [isCharBoundary, List.any_eq_true]
  exact ⟨k, List.mem_range.mpr (Nat.lt_succ_of_le hk), by simp⟩

theorem isCharBoundary_elim {s : List Char} {i : Nat} (h : isCharBoundary s i = true) :
    ∃ k, k ≤ s.length ∧ byteLen (s.take k) = i := by
  rw [isCharBoundary, List.any_eq_true] at h
  obtain ⟨k, hk, he⟩ := h
  exact ⟨k, Nat.le_of_lt_succ (List.mem_range.mp hk), by simpa using he⟩

theorem scanBack_le (s : List Char) (i : Nat) : scanBack s i ≤ i := by
  induction i with
  | zero => exact Nat.le_refl 0
  | succ i ih =>
    by_cases h : isCharBoundary s (i + 1) = true
    · simp [scanBack, h]
    · simp only [scanBack, h, if_false]
      exact Nat.le_succ_of_le ih

theorem scanBack_boundary (s : List Char) (i : Nat) :
    scanBack s i = 0 ∨ isCharBoundary s (scanBack s i) = true := by
  induction i with
  | zero => exact Or.inl rfl
  | succ i ih =>
    by_cases h : isCharBoundary s (i + 1) = true
    · right
      simp [scanBack, h]
    · simpa [scanBack, h] using ih

theorem scanBack_ge {s : List Char} {b : Nat} (hb : isCharBoundary s b = true)
    (i : Nat) (hbi : b ≤ i) : b ≤ scanBack s i := by
  induction i with
  | zero => exact hbi
  | succ i ih =>
    by_cases h : isCharBoundary s (i + 1) = true
    · simpa [scanBack, h] using hbi
    · simp only [scanBack, h, if_false]
      have hne : b ≠ i + 1 := fun he => h (he ▸ hb)
      exact ih (by omega)

theorem boundary_pos_ge {c : Char} {cs : List Char} {b : Nat}
    (hb : isCharBoundary (c :: cs) b = true) (hb0 : b ≠ 0) : c.utf8Size ≤ b := by
  obtain ⟨k, hk, he⟩ := isCharBoundary_elim hb
  cases k with
  | zero =>
    simp [byteLen] at he
    omega
  | succ k =>
    rw [List.take_succ_cons, byteLen_cons] at he
    omega

theorem boundary_first (c : Char) (cs : List Char) :
    isCharBoundary (c :: cs) c.utf8Size = true := by
  have h := isCharBoundary_of_take (c :: cs) 1 (by simp)
  simpa [byteLen] using h

theorem sliceTo_take (s : List Char) : ∀ k, k ≤ s.length →
    sliceTo s (byteLen (s.take k)) = s.take k := by
  induction s with
  | nil =>
    intro k hk
    simp at hk
    subst hk
    rfl
  | cons c cs ih =>
    intro k hk
    cases k with
    | zero =>
      have h0 : ¬ (c.utf8Size ≤ 0) := by
        have := Char.utf8Size_pos c
        omega
      simp [sliceTo, byteLen, h0, Char.utf8Size_pos c]
    | succ k =>
      have hk2 : k ≤ cs.length := Nat.le_of_succ_le_succ hk
      rw [List.take_succ_cons, byteLen_cons]
      rw [show sliceTo (c :: cs) (c.utf8Size + byteLen (cs.take k))
            = if c.utf8Size ≤ c.utf8Size + byteLen (cs.take k) then
                c :: sliceTo cs (c.utf8Size + byteLen (cs.take k) - c.utf8Size)
              else [] from rfl]
      rw [if_pos (Nat.le_add_right _ _), Nat.add_sub_cancel_left]
      rw [ih k hk2]

theorem sliceTo_spec {s : List Char} {i : Nat} (h : isCharBoundary s i = true) :
    sliceTo s i <+: s ∧ byteLen (sliceTo s i) = i := by
  obtain ⟨k, hk, he⟩ := isCharBoundary_elim h
  subst he
  rw [sliceTo_take s k hk]
  exact ⟨List.take_prefix k s, rfl⟩

/-! ## Lemmas about text-mode newline handling -/

theorem univNewlines_cons_of_ne (c : Char) (t : List Char) (hc : c ≠ '\r') :
    univNewlines (c :: t) = c :: univNewlines t := by
  cases t with
  | nil => simp [univNewlines, hc]
  | cons d rest => simp [univNewlines, hc]

theorem univNewlines_id (s : List Char) (h : '\r' ∉ s) : univNewlines s = s := by
  induction s with
  | nil => rfl
  | cons c t ih =>
    have hc : c ≠ '\r' := fun he => h (he ▸ List.mem_cons_self c t)
    rw [univNewlines_cons_of_ne c t hc, ih (fun hm => h (List.mem_cons_of_mem c hm))]

theorem encodeNewlines_lf_id (s : List Char) : encodeNewlines lfSep s = s := by
  induction s with
  | nil => rfl
  | cons c t ih =>
    by_cases hc : c = '\n'
    · subst hc
      simpa [encodeNewlines, lfSep] using ih
    · simpa [encodeNewlines, hc, lfSep] using ih

/-! ## Claim theorems -/

/-- Claim C1, counterexample: neither the `update_cli_runner` buffer
transform nor the `fix_mutex.py` line-block splice is idempotent.  On
a buffer consisting of the config-import anchor, the second pass of
`update_cli_runner` inserts a second `use super::platform;` line
(its step-1 replacement contains its own anchor); on the two-character
buffer `x` + newline, the second pass of `fix_mutex.py` splices its
block in again. -/
theorem patch_engine_not_idempotent_counterexample :
    update_cli_runner_transform (update_cli_runner_transform ucrImportAnchor) ≠
        update_cli_runner_transform ucrImportAnchor ∧
      fix_mutex_transform (fix_mutex_transform ('x' :: ['\n'])) ≠
        fix_mutex_transform ('x' :: ['\n']) := by
  constructor
  · decide
  · decide

/-- Claim C1, amended: the patch sequence is not idempotent as a
whole; idempotence holds exactly for the anchor-consuming edits whose
replacement can neither retain nor recreate their search pattern — in
`update_cli_runner`, the call rewrite (step 2) and the creation-flags
rewrite (step 4) each satisfy apply-twice = apply-once on every
buffer. -/
theorem anchored_rewrites_idempotent :
    (∀ s, pyReplace (pyReplace s ucrCallAnchor ucrCallRepl) ucrCallAnchor ucrCallRepl =
        pyReplace s ucrCallAnchor ucrCallRepl) ∧
      ∀ s, pyReplace (pyReplace s ucrFlagsAnchor ucrFlagsRepl) ucrFlagsAnchor ucrFlagsRepl =
        pyReplace s ucrFlagsAnchor ucrFlagsRepl :=
  ⟨pyReplace_idem ucrCallAnchor ucrCallRepl (by decide),
   pyReplace_idem ucrFlagsAnchor ucrFlagsRepl (by decide)⟩

/-- Claim C2: for every buffer and every byte budget,
`truncate_utf8_safe` returns a prefix of the buffer ending on a
character boundary, of byte length at most the budget — except when
the buffer's first character alone exceeds the budget, in which case
the result is exactly that first character and its byte length is that
character's UTF-8 length. -/
theorem truncate_utf8_safe_spec (s : List Char) (m : Nat) :
    truncate_utf8_safe s m <+: s ∧
    isCharBoundary s (byteLen (truncate_utf8_safe s m)) = true ∧
    (byteLen (truncate_utf8_safe s m) ≤ m ∨
      ∃ c rest, s = c :: rest ∧ m < c.utf8Size ∧ truncate_utf8_safe s m = [c] ∧
        byteLen (truncate_utf8_safe s m) = c.utf8Size) := by
  by_cases hfast : byteLen s ≤ m
  · rw [show truncate_utf8_safe s m = s by simp [truncate_utf8_safe, hfast]]
    refine ⟨List.prefix_refl s, ?_, Or.inl hfast⟩
    have h := isCharBoundary_of_take s s.length (Nat.le_refl _)
    simpa using h
  · cases s with
    | nil => exact absurd (by simp [byteLen]) hfast
    | cons c rest =>
      by_cases hw : c.utf8Size ≤ m
      · have hwb : isCharBoundary (c :: rest) c.utf8Size = true := boundary_first c rest
        have hge : c.utf8Size ≤ scanBack (c :: rest) m := scanBack_ge hwb m hw
        have hpos : scanBack (c :: rest) m ≠ 0 := by
          have := Char.utf8Size_pos c
          omega
        have hbnd : isCharBoundary (c :: rest) (scanBack (c :: rest) m) = true := by
          rcases scanBack_boundary (c :: rest) m with h0 | hb
          · exact absurd h0 hpos
          · exact hb
        rw [show truncate_utf8_safe (c :: rest) m
              = sliceTo (c :: rest) (scanBack (c :: rest) m) by
            simp [truncate_utf8_safe, hfast, hpos]]
        obtain ⟨hpref, hlen⟩ := sliceTo_spec hbnd
        refine ⟨hpref, ?_, Or.inl ?_⟩
        · rw [hlen]
          exact hbnd
        · rw [hlen]
          exact scanBack_le (c :: rest) m
      · have hz : scanBack (c :: rest) m = 0 := by
          by_contra hnz
          rcases scanBack_boundary (c :: rest) m with h0 | hb
          · exact hnz h0
          · have h1 := boundary_pos_ge hb hnz
            have h2 := scanBack_le (c :: rest) m
            omega
        rw [show truncate_utf8_safe (c :: rest) m = [c] by
            simp [truncate_utf8_safe, hfast, hz]]
        refine ⟨List.cons_prefix_cons.mpr ⟨rfl, List.nil_prefix⟩, ?_,
          Or.inr ⟨c, rest, rfl, Nat.lt_of_not_le hw, rfl, ?_⟩⟩
        · have hb1 : byteLen [c] = c.utf8Size := by simp [byteLen]
          rw [hb1]
          exact boundary_first c rest
        · simp [byteLen]

/-- Claim C3, counterexample: a job whose file is unreadable does stop
the run — with file 0 unreadable, the subsequent job on file 1 is
never executed, so file 1 keeps its old content instead of the content
its transform would have produced. -/
theorem orchestrator_isolation_counterexample :
    (runJobs fsDemo [jobDemoA, jobDemoB]).1 1 = some [] ∧
      jobDemoB.transform [] = ['x'] ∧
      (runJobs fsDemo [jobDemoA, jobDemoB]).1 1 ≠ some (jobDemoB.transform []) := by
  refine ⟨rfl, rfl, ?_⟩
  decide

/-- Claim C3, amended: on the first job whose file read fails, the
exception propagates to the single `try/except` around the whole job
sequence, so the failure is recorded and every subsequent job is
skipped; the file system is returned exactly as it was at the point of
failure. -/
theorem runJobs_aborts_on_ioerror (fs : Nat → Option (List Char)) (j : Job)
    (rest : List Job) (h : fs j.name = none) :
    runJobs fs (j :: rest) = (fs, some j.name) := by
  simp [runJobs, h]

/-- Witness for `runJobs_aborts_on_ioerror` at a concrete job list. -/
theorem runJobs_aborts_on_ioerror_witness :
    runJobs fsDemo [jobDemoA, jobDemoB] = (fsDemo, some 0) :=
  runJobs_aborts_on_ioerror fsDemo jobDemoA [jobDemoB] rfl

/-- Claim C4, counterexample: on a buffer made of two adjacent
occurrences of the call anchor, the substitution does not change only
the first occurrence (which would give replacement ++ anchor): it
changes both. -/
theorem first_occurrence_only_counterexample :
    pyReplace (ucrCallAnchor ++ ucrCallAnchor) ucrCallAnchor ucrCallRepl ≠
      ucrCallRepl ++ ucrCallAnchor := by
  decide

/-- Claim C4, amended: the appliers (`str.replace` and `re.sub` with a
literal pattern) rewrite every non-overlapping occurrence leftmost
first, not only the first one; on a buffer of two adjacent occurrences
of any nonempty anchor, both are replaced. -/
theorem pyReplace_adjacent_both (old ne : List Char) (h : old ≠ []) :
    pyReplace (old ++ old) old ne = ne ++ ne := by
  cases old with
  | nil => exact absurd rfl h
  | cons o os =>
    show pyReplaceGo (o :: os) ne ((o :: os) ++ (o :: os)).length ((o :: os) ++ (o :: os))
        = ne ++ ne
    have hlen : ((o :: os) ++ (o :: os)).length = (os.length + 1 + os.length) + 1 := by
      simp only [List.length_append, List.length_cons]
      omega
    rw [hlen, replaceGoStepMatch]
    congr 1
    have hA : os.length + 1 + os.length = os.length + os.length + 1 := by omega
    rw [hA, replaceGoWholeMatch]

/-- Witness for `pyReplace_adjacent_both` at the concrete call anchor
of `update_cli_runner`. -/
theorem pyReplace_adjacent_both_witness :
    pyReplace (ucrCallAnchor ++ ucrCallAnchor) ucrCallAnchor ucrCallRepl =
      ucrCallRepl ++ ucrCallRepl :=
  pyReplace_adjacent_both ucrCallAnchor ucrCallRepl (by decide)

/-- Claim C5, counterexample: on the empty buffer every patch of
`update_config` is a no-op (the final buffer equals the original), yet
a write is still performed. -/
theorem update_config_write_counterexample :
    update_config_transform [] = [] ∧ (update_config_job []).2 = true := by
  constructor
  · decide
  · rfl

/-- Claim C5, amended: `update_config` writes the buffer back
unconditionally — there is no dirty check — so a write is performed on
every run, also when all patches left the content identical. -/
theorem update_config_always_writes (s : List Char) : (update_config_job s).2 = true :=
  rfl

/-- Claim C6, counterexample: a run whose only job fails with an I/O
error still terminates with exit status 0, because the `except`
handler only prints and the interpreter then exits normally. -/
theorem exit_code_counterexample :
    (runJobs fsDemo [jobDemoA]).2 = some 0 ∧ mainExitCode fsDemo [jobDemoA] = 0 := by
  constructor
  · rfl
  · rfl

/-- Claim C6, amended: the script always exits with status 0 — on a
fully successful run and equally on a run stopped by an I/O error or
any other exception caught by the top-level handler. -/
theorem exit_code_always_zero (fs : Nat → Option (List Char)) (jobs : List Job) :
    mainExitCode fs jobs = 0 := by
  cases h : (runJobs fs jobs).2 with
  | none => simp [mainExitCode, h]
  | some e => simp [mainExitCode, h]

/-- Claim C7, counterexample: a buffer with a CRLF line ending passes
through the read–transform–write cycle of `update_config` on an LF
platform; no patch matches (the transform is the identity on the
decoded buffer), yet the bytes on disk change — the CRLF is normalized
to LF by text-mode I/O. -/
theorem newline_preservation_counterexample :
    update_config_transform (univNewlines crlfDemo) = univNewlines crlfDemo ∧
      textModeRoundTrip lfSep update_config_transform crlfDemo ≠ crlfDemo := by
  constructor
  · decide
  · decide

/-- Claim C7, amended: text-mode I/O applies universal-newline
translation, so line endings are preserved through a patch-less cycle
only for buffers that contain no carriage return (on an LF platform);
for such buffers every byte is preserved whenever the patch transform
leaves the decoded buffer unchanged. -/
theorem textmode_preserves_crlf_free (t : List Char → List Char) (s : List Char)
    (hs : '\r' ∉ s) (ht : t (univNewlines s) = univNewlines s) :
    textModeRoundTrip lfSep t s = s := by
  rw [textModeRoundTrip, ht, univNewlines_id s hs, encodeNewlines_lf_id]

/-- Witness for `textmode_preserves_crlf_free` with the concrete
`update_config` transform on a CR-free buffer. -/
theorem textmode_preserves_crlf_free_witness :
    textModeRoundTrip lfSep update_config_transform "ab".data = "ab".data :=
  textmode_preserves_crlf_free update_config_transform "ab".data (by decide) (by decide)

/-- Claim C8: the no-op fast path — whenever the buffer's byte length
is within the budget, `truncate_utf8_safe` returns the buffer itself,
unchanged. -/
theorem truncate_noop_fast_path (s : List Char) (m : Nat) (h : byteLen s ≤ m) :
    truncate_utf8_safe s m = s := by
  simp [truncate_utf8_safe, h]

/-- Witness for `truncate_noop_fast_path` at a concrete buffer. -/
theorem truncate_noop_fast_path_witness :
    byteLen "ab".data ≤ 5 ∧ truncate_utf8_safe "ab".data 5 = "ab".data :=
  ⟨by decide, truncate_noop_fast_path "ab".data 5 (by decide)⟩

/-- Claim C9: `truncate_utf8_safe` never returns the empty string on a
nonempty buffer — the result always retains at least the first
character (the `unwrap_or("")` fallback is unreachable, since the
empty buffer always takes the identity fast path). -/
theorem truncate_keeps_first_char (s : List Char) (m : Nat) (h : s ≠ []) :
    truncate_utf8_safe s m ≠ [] ∧ (truncate_utf8_safe s m).head? = s.head? := by
  cases s with
  | nil => exact absurd rfl h
  | cons c rest =>
    by_cases hfast : byteLen (c :: rest) ≤ m
    · rw [show truncate_utf8_safe (c :: rest) m = c :: rest by
          simp [truncate_utf8_safe, hfast]]
      exact ⟨List.cons_ne_nil c rest, rfl⟩
    · by_cases hz : scanBack (c :: rest) m = 0
      · rw [show truncate_utf8_safe (c :: rest) m = [c] by
            simp [truncate_utf8_safe, hfast, hz]]
        exact ⟨List.cons_ne_nil c [], rfl⟩
      · rw [show truncate_utf8_safe (c :: rest) m
              = sliceTo (c :: rest) (scanBack (c :: rest) m) by
            simp [truncate_utf8_safe, hfast, hz]]
        have hbnd : isCharBoundary (c :: rest) (scanBack (c :: rest) m) = true := by
          rcases scanBack_boundary (c :: rest) m with h0 | hb
          · exact absurd h0 hz
          · exact hb
        have hge : c.utf8Size ≤ scanBack (c :: rest) m := boundary_pos_ge hbnd hz
        rw [show sliceTo (c :: rest) (scanBack (c :: rest) m)
              = c :: sliceTo rest (scanBack (c :: rest) m - c.utf8Size) by
            simp [sliceTo, hge]]
        exact ⟨List.cons_ne_nil _ _, rfl⟩

/-- Witness for `truncate_keeps_first_char` at a concrete nonempty
buffer truncated to budget 0. -/
theorem truncate_keeps_first_char_witness :
    truncate_utf8_safe "a".data 0 ≠ [] ∧
      (truncate_utf8_safe "a".data 0).head? = "a".data.head? :=
  truncate_keeps_first_char "a".data 0 (by decide)

/-- Claim C10: each of the four slice rewrites of `fix_utf8.py` is
idempotent on every buffer — its replacement can neither retain nor
recreate its search pattern, so the second application is always a
no-op. -/
theorem slice_rewrites_idempotent :
    (∀ s, pyReplace (pyReplace s sliceOld1 sliceNew1) sliceOld1 sliceNew1 =
        pyReplace s sliceOld1 sliceNew1) ∧
      (∀ s, pyReplace (pyReplace s sliceOld2 sliceNew2) sliceOld2 sliceNew2 =
        pyReplace s sliceOld2 sliceNew2) ∧
      (∀ s, pyReplace (pyReplace s sliceOld3 sliceNew3) sliceOld3 sliceNew3 =
        pyReplace s sliceOld3 sliceNew3) ∧
      ∀ s, pyReplace (pyReplace s sliceOld4 sliceNew4) sliceOld4 sliceNew4 =
        pyReplace s sliceOld4 sliceNew4 :=
  ⟨pyReplace_idem sliceOld1 sliceNew1 (by decide),
   pyReplace_idem sliceOld2 sliceNew2 (by decide),
   pyReplace_idem sliceOld3 sliceNew3 (by decide),
   pyReplace_idem sliceOld4 sliceNew4 (by decide)⟩

end Workbench
